import Mathlib

/-!
# Verification of the mootools-decorator library (Source/Decorator.js)

Shallow embedding of the decoration dispatch mechanism, the named-decorator
registry, the `strictArguments` validator, and the three timing decorators
(`throttle`, `debounce`, `queue`), together with theorems settling the
specification claims.

JS machine model: single-threaded cooperative scheduling.  Time is a `Nat`
tick counter; a `setTimeout(cb, interval)` issued at tick `t` may run its
callback no earlier than tick `t + max(interval, 1)` (a zero or negative
delay still defers the callback past the current tick, as the host event
loop runs queued macrotasks strictly after the code of the current tick).
All due timer callbacks are run, earliest expiry first, before the events
of a later tick are processed.
-/

namespace MooDecorator

/-- JS runtime values, restricted to the value categories the library's
validators and registry manipulate. -/
inductive JSVal : Type where
  | num (n : Int)
  | str (s : String)
  | bool (b : Bool)
  | arr (elems : List JSVal)

mutual

/-- JS `toString` conversion: an array converts to the comma-joined
conversion of its elements (used by `Array.prototype.toString`). -/
def jsToString : JSVal → String
  | .num n => toString n
  | .str s => s
  | .bool b => cond b "true" "false"
  | .arr xs => String.intercalate "," (jsToStringList xs)

def jsToStringList : List JSVal → List String
  | [] => []
  | x :: xs => jsToString x :: jsToStringList xs

end

/-- Modelled from the spec: the MooTools `$type` helper is not part of this
repository (it is required as `/$util`); spec §9 DESIGN NOTES prescribes a
closed set of recognized value-category tags (number/string/boolean/array/…)
resolved by runtime introspection, with the tag vocabulary kept identical. -/
def typeOf : JSVal → String
  | .num _ => "number"
  | .str _ => "string"
  | .bool _ => "boolean"
  | .arr _ => "array"

/-- JS loose equality `==` between a type-tag string (the result of `$type`,
always a non-numeric word such as "number") and an arbitrary value, as used
in `strictArguments`'s comparison `$type(args[i]) != types[i]`.  A string
compares to a string by content and to an array by the array's string
conversion (ToPrimitive); a tag word never equals a number or a boolean
because its ToNumber conversion is NaN. -/
def jsLooseEqStr (s : String) (v : JSVal) : Bool :=
  match v with
  | .str t => s == t
  | .arr xs => s == jsToString (.arr xs)
  | .num _ => false
  | .bool _ => false

/-- JS exception values thrown by the library (`new Error(msg)`) or by the
host (`TypeError` when a missing registry entry is applied). -/
inductive JSError : Type where
  | error (msg : String)
  | typeError (msg : String)
deriving Repr, DecidableEq

/-- A callable: invocation context (`this` binding) and argument list in,
a result or a thrown error out. -/
abbrev Callable (Γ R : Type) := Γ → List JSVal → Except JSError R

/-- A decorator: `function(method, args)` invoked with the decorated call's
context; it receives the base callable and the call's arguments. -/
abbrev Decorator (Γ R : Type) := Callable Γ R → Callable Γ R

/-- `decorate`, direct-decorator branch (Source/Decorator.js lines 45-48):
the decorated callable invokes `decorator.apply(this, [method, arguments])`. -/
def decorate (method : Callable Γ R) (dec : Decorator Γ R) : Callable Γ R :=
  fun ctx args => dec method ctx args

/-- The pass-through decorator (the test suite's `dummyDecorator`):
`function(method, args) { return method.apply(this, args); }`. -/
def dummyDecorator : Decorator Γ R :=
  fun method ctx args => method ctx args

/-- A decorator factory as stored in `Function.Decorators.Collection`: a JS
function receiving an `arguments` list and returning a decorator. -/
abbrev Factory (Γ R : Type) := List JSVal → Decorator Γ R

/-- The registry `Function.Decorators.Collection`, as an association list;
the most recent binding for a name shadows older ones (property assignment
overwrites). -/
abbrev Registry (Γ R : Type) := List (String × Factory Γ R)

/-- Property read `Function.Decorators.Collection[name]`. -/
def lookupFactory (name : String) : Registry Γ R → Option (Factory Γ R)
  | [] => none
  | (n, f) :: rest => if n = name then some f else lookupFactory name rest

/-- `Function.Decorators.add(name, decorator)` (lines 92-94): assigns
`Collection[name] = decorator`, overwriting any previous binding. -/
def Decorators.add (reg : Registry Γ R) (name : String) (f : Factory Γ R) :
    Registry Γ R :=
  (name, f) :: reg

/-- `decorate`, by-name branch (lines 49-53): the decorated callable looks the
factory up at each invocation and calls it as `Collection[decorator](args)` —
note the factory receives the saved argument *array* as one single argument,
so its own `arguments` list is the one-element list `[JSVal.arr dargs]`.
Applying a missing entry (`undefined`) throws a `TypeError` at invocation. -/
def decorateByName (method : Callable Γ R) (name : String) (dargs : List JSVal) :
    Registry Γ R → Callable Γ R :=
  fun reg ctx args =>
    match lookupFactory name reg with
    | some f => f [JSVal.arr dargs] method ctx args
    | none =>
        Except.error (JSError.typeError
          ("Function.Decorators.Collection[" ++ name ++ "] is not a function"))

/-- The type-check loop of `strictArguments` (lines 122-126): scan positions
in order, throwing at the first argument whose `$type` tag is not loosely
equal to the expected entry; `i` is the 1-based position used in the message. -/
def strictCheck : List JSVal → List JSVal → Nat → Option JSError
  | t :: ts, a :: rest, i =>
      if jsLooseEqStr (typeOf a) t then strictCheck ts rest (i + 1)
      else some (JSError.error ("Wrong type for argument #" ++ toString i ++
        ": \"" ++ typeOf a ++ "\" should be \"" ++ jsToString t ++ "\""))
  | _, _, _ => none

/-- `Function.Decorators.Collection.strictArguments` (lines 116-129): a
factory whose `arguments` list is the expected type list; the decorator
first checks the argument count, then each argument's type tag, and only
then calls through to the base callable with unchanged arguments. -/
def strictArguments (typesArgs : List JSVal) : Decorator Γ R :=
  fun method ctx args =>
    if typesArgs.length ≠ args.length then
      Except.error (JSError.error (toString typesArgs.length ++
        " arguments expected, passed: " ++ toString args.length))
    else
      match strictCheck typesArgs args 1 with
      | some e => Except.error e
      | none => method ctx args

/-- Claim-side characterization for C9: a call passes validation exactly when
the argument count matches the expected list's length and every argument's
runtime type tag equals the expected tag at its position. -/
def saOk (ts : List String) (args : List JSVal) : Bool :=
  ts.length == args.length &&
    (List.zip args ts).all fun p => typeOf p.1 == p.2

/-- Stateful decorator instance: the closure state `σ` a factory creates
afresh on each factory call (e.g. `throttle`'s `timer` variable), together
with the per-invocation step of the decorator it returns. -/
structure SDecorator (σ Γ R : Type) where
  init : σ
  step : (Γ → List JSVal → R) → σ → Γ → List JSVal → σ × R

/-- Direct decoration of a stateful decorator: the factory ran once at
decoration time, so one closure state is threaded through all invocations. -/
def runDirect (method : Γ → List JSVal → R) (d : SDecorator σ Γ R) :
    List (Γ × List JSVal) → σ → List R
  | [], _ => []
  | c :: cs, s =>
      let r := d.step method s c.1 c.2
      r.2 :: runDirect method d cs r.1

/-- By-name decoration of a stateful decorator (line 51): the factory is
re-applied at every invocation of the decorated callable, so each invocation
runs on a freshly created closure state `d.init`. -/
def runByName (method : Γ → List JSVal → R) (d : SDecorator σ Γ R) :
    List (Γ × List JSVal) → List R
  | [] => []
  | c :: cs => (d.step method d.init c.1 c.2).2 :: runByName method d cs

lemma strictCheck_none_of_all (ts : List String) (args : List JSVal) (i : Nat)
    (hall : ((List.zip args ts).all fun p => typeOf p.1 == p.2) = true) :
    strictCheck (List.map JSVal.str ts) args i = none := by
  induction ts generalizing args i with
  | nil => cases args <;> simp [strictCheck]
  | cons t ts ih =>
      cases args with
      | nil => simp [strictCheck]
      | cons a rest =>
          simp only [List.zip_cons_cons, List.all_cons, Bool.and_eq_true] at hall
          simp only [List.map_cons, strictCheck, jsLooseEqStr]
          rw [if_pos hall.1]
          exact ih rest (i + 1) hall.2

lemma strictCheck_some_of_not_all (ts : List String) (args : List JSVal) (i : Nat)
    (hall : ((List.zip args ts).all fun p => typeOf p.1 == p.2) = false) :
    ∃ e, strictCheck (List.map JSVal.str ts) args i = some e := by
  induction ts generalizing args i with
  | nil => cases args <;> simp_all
  | cons t ts ih =>
      cases args with
      | nil => simp_all
      | cons a rest =>
          simp only [List.zip_cons_cons, List.all_cons, Bool.and_eq_false_iff] at hall
          simp only [List.map_cons, strictCheck, jsLooseEqStr]
          rcases hall with h | h
          · rw [if_neg (by simp [h])]
            exact ⟨_, rfl⟩
          · by_cases hc : (typeOf a == t) = true
            · rw [if_pos hc]
              exact ih rest (i + 1) h
            · rw [if_neg hc]
              exact ⟨_, rfl⟩

/-- C9: a `strictArguments`-decorated call fails with a validation error
exactly when the supplied argument count differs from the expected type
list's length or some argument's runtime type tag differs from the expected
tag at its position; on failure the base callable is not invoked (the thrown
error does not depend on it), and otherwise the base callable runs with the
unchanged arguments and its result is returned. -/
theorem strictArguments_validates (Γ R : Type) (ts : List String) (ctx : Γ)
    (args : List JSVal) :
    if saOk ts args then
      ∀ method : Callable Γ R,
        strictArguments (List.map JSVal.str ts) method ctx args = method ctx args
    else
      ∃ e : JSError, ∀ method : Callable Γ R,
        strictArguments (List.map JSVal.str ts) method ctx args = Except.error e := by
  by_cases h : saOk ts args = true
  · rw [if_pos h]
    intro method
    unfold saOk at h
    rw [Bool.and_eq_true, beq_iff_eq] at h
    unfold strictArguments
    rw [if_neg (by simp [h.1])]
    rw [strictCheck_none_of_all ts args 1 h.2]
  · rw [if_neg h]
    unfold saOk at h
    rw [Bool.and_eq_true, beq_iff_eq] at h
    push_neg at h
    by_cases hl : ts.length = args.length
    · have hna := h hl
      simp only [ne_eq, Bool.not_eq_true] at hna
      obtain ⟨e, he⟩ := strictCheck_some_of_not_all ts args 1 hna
      refine ⟨e, fun method => ?_⟩
      unfold strictArguments
      rw [if_neg (by simp [hl]), he]
    · refine ⟨JSError.error (toString ts.length ++
        " arguments expected, passed: " ++ toString args.length), fun method => ?_⟩
      unfold strictArguments
      rw [if_pos (by simp [hl])]
      simp

/-- C10: by-name decoration defers the registry lookup and the factory
instantiation to each invocation of the decorated callable: (1) a factory
registered under the name — even after decoration — is the one looked up and
applied at invocation time; (2) with the name unregistered, decoration itself
succeeds and the failure (a `TypeError` from applying a missing entry) occurs
only when the decorated callable is invoked; (3) a stateful factory is
re-applied on every invocation, so each invocation of a by-name-decorated
callable runs on a fresh closure state `d.init`, independent of all earlier
invocations. -/
theorem decorateByName_deferred (Γ R σ : Type) (method : Callable Γ R)
    (name : String) (dargs : List JSVal) (reg : Registry Γ R) (f : Factory Γ R)
    (ctx : Γ) (args : List JSVal) (m : Γ → List JSVal → R) (d : SDecorator σ Γ R)
    (cs : List (Γ × List JSVal)) :
    (decorateByName method name dargs (Decorators.add reg name f) ctx args
      = f [JSVal.arr dargs] method ctx args)
    ∧ (decorateByName method name dargs [] ctx args
      = Except.error (JSError.typeError
          ("Function.Decorators.Collection[" ++ name ++ "] is not a function")))
    ∧ (runByName m d cs = cs.map fun c => (d.step m d.init c.1 c.2).2) := by
  refine ⟨?_, rfl, ?_⟩
  · simp [decorateByName, Decorators.add, lookupFactory]
  · induction cs with
    | nil => rfl
    | cons c cs ih => simp [runByName, ih]

/-- C8: decorating with the pass-through decorator yields a callable whose
output equals the undecorated callable's output for every base callable,
argument list and invocation context. -/
theorem decorate_dummy_id (Γ R : Type) (method : Callable Γ R) (ctx : Γ)
    (args : List JSVal) :
    decorate method dummyDecorator ctx args = method ctx args := rfl

/-- C1: evaluation at the failing input.  With `strictArguments` registered
under its name, the directly-instantiated form `strictArguments('number',
'string')` accepts the call `(1, "a")` and runs the base callable, but the
by-name form `decorate('strictArguments', 'number', 'string')` passes the
saved argument array to the factory as one single argument, so the factory
sees an expected-type list of length 1 and the same call throws
`1 arguments expected, passed: 2` without running the base callable. -/
theorem registry_roundtrip_mismatch :
    (decorate (fun _ args => Except.ok args)
      (strictArguments [JSVal.str "number", JSVal.str "string"])
      () [JSVal.num 1, JSVal.str "a"]
      = Except.ok [JSVal.num 1, JSVal.str "a"])
    ∧ (decorateByName (fun _ args => Except.ok args)
      "strictArguments" [JSVal.str "number", JSVal.str "string"]
      (Decorators.add ([] : Registry Unit (List JSVal)) "strictArguments" strictArguments)
      () [JSVal.num 1, JSVal.str "a"]
      = Except.error (JSError.error "1 arguments expected, passed: 2")) := by
  constructor
  · rfl
  · rfl

/-! ## Timing decorators: throttle -/

/-- Earliest tick at which a `setTimeout(cb, interval)` issued at tick `t`
can run its callback: a zero or negative delay still defers past the
current tick. -/
def timeoutExpiry (interval : Int) (t : Nat) : Nat :=
  t + (max interval 1).toNat

/-- Closure state of one `throttle(interval)` decorator instance (line 182):
the `timer` variable, holding the pending timeout's expiry tick when set. -/
structure TState : Type where
  timer : Option Nat
deriving Repr, DecidableEq

/-- The `throttle` timeout callback `function() { timer = null; }` (line 185):
run before a call at tick `t` when the pending timeout is due. -/
def throttleFire (s : TState) (t : Nat) : TState :=
  match s.timer with
  | some e => if e ≤ t then ⟨none⟩ else s
  | none => s

/-- One invocation of a `throttle(interval)`-decorated callable at tick `t`
(lines 183-188): the event loop first runs any due timeout callback; then if
`timer` is unset, a new timeout is armed and the base callable runs
synchronously, its result returned; otherwise the call is dropped and the
decorated call returns `undefined` (`none`). -/
def throttleCall (interval : Int) (method : Γ → A → R) (s : TState) (t : Nat)
    (ctx : Γ) (args : A) : TState × Option R :=
  let s1 := throttleFire s t
  match s1.timer with
  | none => (⟨some (timeoutExpiry interval t)⟩, some (method ctx args))
  | some _ => (s1, none)

/-- Run a `throttle(interval)`-decorated callable over a timed call trace,
collecting each decorated call's returned value. -/
def throttleRun (interval : Int) (method : Γ → A → R) :
    List (Nat × Γ × A) → TState → TState × List (Option R)
  | [], s => (s, [])
  | (t, γ, a) :: rest, s =>
      let r := throttleCall interval method s t γ a
      let rr := throttleRun interval method rest r.1
      (rr.1, r.2 :: rr.2)

lemma throttleRun_drop_window (interval : Int) (method : Γ → A → R) (e : Nat)
    (rest : List (Nat × Γ × A)) (hw : ∀ c ∈ rest, c.1 < e) :
    throttleRun interval method rest ⟨some e⟩
      = (⟨some e⟩, rest.map fun _ => none) := by
  induction rest with
  | nil => rfl
  | cons c cs ih =>
      obtain ⟨t, γ, a⟩ := c
      have ht : t < e := hw (t, γ, a) (List.mem_cons_self _ _)
      have hfire : throttleFire ⟨some e⟩ t = ⟨some e⟩ := by
        simp [throttleFire, Nat.not_le.mpr ht]
      simp only [throttleRun, throttleCall, hfire]
      rw [ih fun c hc => hw c (List.mem_cons_of_mem _ hc)]
      rfl

/-- C5: with `throttle(interval)` and a positive `interval`, for every burst
whose first invocation happens at tick `t1` and whose remaining invocations
all happen inside the open window of length `interval` starting at `t1`,
exactly the first invocation runs the base callable — with the first call's
own arguments and context, returning its result — and every subsequent
in-window invocation does not invoke the base callable and returns
`undefined` (`none`). -/
theorem throttle_leading_edge (Γ A R : Type) (interval : Int)
    (method : Γ → A → R) (t1 : Nat) (γ1 : Γ) (a1 : A)
    (rest : List (Nat × Γ × A)) (hpos : 0 < interval)
    (hw : ∀ c ∈ rest, t1 ≤ c.1 ∧ c.1 < t1 + interval.toNat) :
    throttleRun interval method ((t1, γ1, a1) :: rest) ⟨none⟩
      = (⟨some (t1 + interval.toNat)⟩,
          some (method γ1 a1) :: rest.map fun _ => none) := by
  have hmax : (max interval 1).toNat = interval.toNat := by
    omega
  have hfirst : throttleCall interval method ⟨none⟩ t1 γ1 a1
      = (⟨some (t1 + interval.toNat)⟩, some (method γ1 a1)) := by
    simp [throttleCall, throttleFire, timeoutExpiry, hmax]
  simp only [throttleRun, hfirst]
  rw [throttleRun_drop_window interval method _ rest fun c hc => (hw c hc).2]

/-- Witness for C5 at `throttle(5)` with calls at ticks 0, 2, 4: only the
first call runs the base callable and returns its result. -/
theorem throttle_leading_edge_witness :
    throttleRun 5 (fun (_ : Unit) (a : Nat) => a)
        [(0, (), 1), (2, (), 2), (4, (), 3)] ⟨none⟩
      = (⟨some 5⟩, [some 1, none, none]) := by
  have h := throttle_leading_edge Unit Nat Nat 5 (fun _ a => a) 0 () 1
    [(2, (), 2), (4, (), 3)] (by decide) (by decide)
  simpa using h

/-- Claim-side expected outputs for C7: with no meaningful suppression
window, the first call fires, and each later call fires exactly when its
tick is strictly later than the tick of the last fired call (same-tick
followers are dropped); `p` is the tick of the last fired call. -/
def firesEachNewTick (method : Γ → A → R) (p : Nat) :
    List (Nat × Γ × A) → List (Option R)
  | [] => []
  | (t, γ, a) :: rest =>
      if p < t then some (method γ a) :: firesEachNewTick method t rest
      else none :: firesEachNewTick method p rest

lemma throttleRun_nonpos_aux (interval : Int) (method : Γ → A → R)
    (hi : interval ≤ 0) (trace : List (Nat × Γ × A)) :
    ∀ p : Nat, List.Chain' (fun c c' => c.1 ≤ c'.1) trace →
      (∀ c ∈ trace.head?, p ≤ c.1) →
      (throttleRun interval method trace ⟨some (p + 1)⟩).2
        = firesEachNewTick method p trace := by
  have hmax : (max interval 1).toNat = 1 := by omega
  induction trace with
  | nil => intro p _ _; rfl
  | cons c cs ih =>
      intro p hchain hhead
      obtain ⟨t, γ, a⟩ := c
      have hpt : p ≤ t := hhead _ rfl
      by_cases hlt : p < t
      · have hfire : throttleFire ⟨some (p + 1)⟩ t = ⟨none⟩ := by
          simp [throttleFire, Nat.succ_le_of_lt hlt]
        simp only [throttleRun, throttleCall, hfire, timeoutExpiry, hmax,
          firesEachNewTick, if_pos hlt]
        refine congrArg _ (ih t hchain.tail fun c hc => ?_)
        cases cs with
        | nil => simp at hc
        | cons d ds =>
            simp only [List.head?_cons, Option.mem_def, Option.some_inj] at hc
            subst hc
            exact (List.chain'_cons.mp hchain).1
      · have hpt' : p = t := le_antisymm hpt (Nat.not_lt.mp hlt)
        subst hpt'
        have hfire : throttleFire ⟨some (p + 1)⟩ p = ⟨some (p + 1)⟩ := by
          simp [throttleFire]
        simp only [throttleRun, throttleCall, hfire, firesEachNewTick,
          if_neg hlt]
        refine congrArg _ (ih p hchain.tail fun c hc => ?_)
        cases cs with
        | nil => simp at hc
        | cons d ds =>
            simp only [List.head?_cons, Option.mem_def, Option.some_inj] at hc
            subst hc
            exact (List.chain'_cons.mp hchain).1

/-- C7: with `throttle(interval)` and `interval ≤ 0`, over any call trace
with nondecreasing ticks, every invocation made at a tick strictly later
than the previous fired call's tick runs the base callable (no suppression
window outlasts a tick), while concurrent calls within the same tick are
evaluated in call order — the first of a tick wins the leading edge and its
same-tick followers are dropped. -/
theorem throttle_nonpos_always_fires (Γ A R : Type) (interval : Int)
    (method : Γ → A → R) (t1 : Nat) (γ1 : Γ) (a1 : A)
    (rest : List (Nat × Γ × A)) (hi : interval ≤ 0)
    (hmono : List.Chain' (fun c c' => c.1 ≤ c'.1) ((t1, γ1, a1) :: rest)) :
    (throttleRun interval method ((t1, γ1, a1) :: rest) ⟨none⟩).2
      = some (method γ1 a1) :: firesEachNewTick method t1 rest := by
  have hmax : (max interval 1).toNat = 1 := by omega
  have hfirst : throttleCall interval method ⟨none⟩ t1 γ1 a1
      = (⟨some (t1 + 1)⟩, some (method γ1 a1)) := by
    simp [throttleCall, throttleFire, timeoutExpiry, hmax]
  simp only [throttleRun, hfirst]
  refine congrArg _ (throttleRun_nonpos_aux interval method hi rest t1
    hmono.tail fun c hc => ?_)
  cases rest with
  | nil => simp at hc
  | cons d ds =>
      simp only [List.head?_cons, Option.mem_def, Option.some_inj] at hc
      subst hc
      exact (List.chain'_cons.mp hmono).1

/-- Witness for C7 at `throttle(0)` with calls at ticks 0, 0, 1: the first
call of each tick fires, the same-tick follower is dropped. -/
theorem throttle_nonpos_always_fires_witness :
    (throttleRun 0 (fun (_ : Unit) (a : Nat) => a)
        [(0, (), 1), (0, (), 2), (1, (), 3)] ⟨none⟩).2
      = [some 1, none, some 3] := by
  have h := throttle_nonpos_always_fires Unit Nat Nat 0 (fun _ a => a) 0 () 1
    [(0, (), 2), (1, (), 3)] (by decide) (by simp [List.chain'_cons])
  simpa [firesEachNewTick] using h

/-! ## Timing decorators: debounce -/

/-- Closure state of one `debounce(interval)` decorator instance (line 210):
the `timer` variable; a pending timeout carries its expiry tick and the
context and arguments captured by the invocation that scheduled it. -/
structure DState (Γ A : Type) : Type where
  timer : Option (Nat × Γ × A)
deriving Repr, DecidableEq

/-- The `debounce` timeout callback
`function() { method.apply(context, args); }` (line 214): run before a call
at tick `t` when the pending timeout is due, producing the deferred
execution of the base callable. -/
def debounceFire (s : DState Γ A) (t : Nat) : DState Γ A × List (Γ × A) :=
  match s.timer with
  | some (e, γ, a) => if e ≤ t then (⟨none⟩, [(γ, a)]) else (s, [])
  | none => (s, [])

/-- One invocation of a `debounce(interval)`-decorated callable at tick `t`
(lines 211-215): the event loop first runs a due timeout callback; then the
invocation cancels any pending timeout (`timer && clearTimeout(timer)`) and
always schedules a new one carrying this invocation's context and
arguments.  The decorated call itself returns no value. -/
def debounceCall (interval : Int) (s : DState Γ A) (t : Nat) (ctx : Γ)
    (a : A) : DState Γ A × List (Γ × A) :=
  let r := debounceFire s t
  (⟨some (timeoutExpiry interval t, ctx, a)⟩, r.2)

/-- Run a `debounce(interval)`-decorated callable over a timed call trace,
collecting the deferred executions of the base callable that occur during
the trace (in order). -/
def debounceRun (interval : Int) :
    List (Nat × Γ × A) → DState Γ A → DState Γ A × List (Γ × A)
  | [], s => (s, [])
  | (t, γ, a) :: rest, s =>
      let r := debounceCall interval s t γ a
      let rr := debounceRun interval rest r.1
      (rr.1, r.2 ++ rr.2)

/-- Executions that occur once the trace is over and the remaining pending
timeout, if any, expires undisturbed. -/
def debounceFlush (s : DState Γ A) : List (Γ × A) :=
  match s.timer with
  | some (_, γ, a) => [(γ, a)]
  | none => []

lemma debounceRun_burst_aux (interval : Int) (pre : List (Nat × Γ × A)) :
    ∀ (t0 : Nat) (γ0 : Γ) (a0 : A) (tn : Nat) (γn : Γ) (an : A),
      List.Chain' (fun c c' => c'.1 < timeoutExpiry interval c.1)
        ((t0, γ0, a0) :: pre ++ [(tn, γn, an)]) →
      debounceRun interval (pre ++ [(tn, γn, an)])
          ⟨some (timeoutExpiry interval t0, γ0, a0)⟩
        = (⟨some (timeoutExpiry interval tn, γn, an)⟩, []) := by
  induction pre with
  | nil =>
      intro t0 γ0 a0 tn γn an hchain
      have hlt : tn < timeoutExpiry interval t0 :=
        (List.chain'_cons.mp hchain).1
      simp [debounceRun, debounceCall, debounceFire, Nat.not_le.mpr hlt]
  | cons c cs ih =>
      intro t0 γ0 a0 tn γn an hchain
      obtain ⟨t, γ, a⟩ := c
      have hlt : t < timeoutExpiry interval t0 :=
        (List.chain'_cons.mp hchain).1
      have htail := (List.chain'_cons.mp hchain).2
      simp only [List.cons_append, debounceRun, debounceCall, debounceFire,
        Nat.not_le.mpr hlt, if_false, List.append_eq]
      rw [ih t γ a tn γn an htail]
      rfl

/-- C4: for every burst of invocations of a `debounce(interval)`-decorated
callable in which each invocation happens strictly before the timeout
scheduled by the previous invocation expires, no execution of the base
callable happens during the burst; each invocation leaves the pending
timeout carrying its own context and arguments (the previous timeout having
been cancelled and a new one scheduled); and once the burst is over, exactly
one execution of the base callable occurs, with the arguments and context
of the most recent invocation. -/
theorem debounce_collapse (Γ A : Type) (interval : Int)
    (pre : List (Nat × Γ × A)) (tn : Nat) (γn : Γ) (an : A)
    (hb : List.Chain' (fun c c' => c'.1 < timeoutExpiry interval c.1)
      (pre ++ [(tn, γn, an)])) :
    (debounceRun interval (pre ++ [(tn, γn, an)]) ⟨none⟩).2 = []
    ∧ (debounceRun interval (pre ++ [(tn, γn, an)]) ⟨none⟩).1.timer
      = some (timeoutExpiry interval tn, γn, an)
    ∧ debounceFlush (debounceRun interval (pre ++ [(tn, γn, an)]) ⟨none⟩).1
      = [(γn, an)] := by
  have hrun : debounceRun interval (pre ++ [(tn, γn, an)]) ⟨none⟩
      = (⟨some (timeoutExpiry interval tn, γn, an)⟩, []) := by
    cases pre with
    | nil => rfl
    | cons c cs =>
        obtain ⟨t, γ, a⟩ := c
        simp only [List.cons_append, debounceRun, debounceCall, debounceFire,
          List.append_eq]
        rw [debounceRun_burst_aux interval cs t γ a tn γn an hb]
        rfl
  rw [hrun]
  exact ⟨rfl, rfl, rfl⟩

/-- Witness for C4 at `debounce(5)` with calls at ticks 0 and 3: nothing
runs during the burst, and the single eventual execution uses the second
call's arguments. -/
theorem debounce_collapse_witness :
    (debounceRun 5 [((0 : Nat), (), (1 : Nat)), (3, (), 2)] ⟨none⟩).2 = []
    ∧ (debounceRun 5 [((0 : Nat), (), (1 : Nat)), (3, (), 2)] ⟨none⟩).1.timer
      = some (8, (), 2)
    ∧ debounceFlush (debounceRun 5 [((0 : Nat), (), (1 : Nat)), (3, (), 2)] ⟨none⟩).1
      = [((), 2)] := by
  have h := debounce_collapse Unit Nat 5 [(0, (), 1)] 3 () 2
    (by simp [List.chain'_cons, timeoutExpiry])
  simpa [timeoutExpiry] using h

/-! ## Timing decorators: queue

The `queue(interval)` decorator (lines 237-255) shares one `calls` array and
one `timer` variable among the decorated callable and the timeout callbacks
it creates.  Each timeout callback closes over the `context` of the
invocation that started its drain chain.  The callback body is

    calls.length && method.apply(context, calls.shift());
    calls.length && callee();
    timer = null;

where `callee()` re-runs the arming step (`timer = setTimeout(...)`).  Note
two consequences embedded faithfully below: `timer = null` runs *after*
`callee()` has stored the re-armed handle, so the `timer` variable is null
after every callback even while a re-armed timeout is live; and the replay
step is unguarded, so a throwing replay aborts the callback before
`callee()` and `timer = null` run. -/

/-- One recorded replay of the base callable by the queue decorator.
`usedCtx` is the context the replay actually ran under (the firing chain's
captured context); `entryCtx` records, as ghost data, the context of the
invocation that queued the entry (the source stores only the arguments). -/
structure QExec (Γ A : Type) : Type where
  time : Nat
  usedCtx : Γ
  entryCtx : Γ
  args : A
  threw : Bool
deriving Repr, DecidableEq

/-- Closure state of one `queue(interval)` decorator instance together with
its live timeouts: the shared `calls` array (each entry's queuing context
kept as ghost data alongside the stored arguments), the truthiness of the
shared `timer` variable, the live timeouts (expiry tick and chain context),
and the replays performed so far. -/
structure QState (Γ A : Type) : Type where
  calls : List (Γ × A)
  timerVar : Bool
  timers : List (Nat × Γ)
  execs : List (QExec Γ A)
deriving Repr, DecidableEq

/-- The initial state of a fresh `queue(interval)` decorator instance:
`calls = []`, `timer = null` (line 238-239). -/
def qInit : QState Γ A := ⟨[], false, [], []⟩

/-- Select the live timeout with the earliest expiry (the one the host event
loop runs first; earliest-scheduled wins ties), returning it and the
remaining timeouts. -/
def pickMin : List (Nat × Γ) → Option ((Nat × Γ) × List (Nat × Γ))
  | [] => none
  | x :: xs =>
      match pickMin xs with
      | none => some (x, [])
      | some (y, ys) => if x.1 ≤ y.1 then some (x, xs) else some (y, x :: ys)

/-- Run one queue timeout callback (lines 247-251) whose expiry is `e` and
whose drain chain captured context `γ`; `rest` are the other live timeouts;
`throws γ a` tells whether the base callable raises on that replay.
If the queue is non-empty the oldest entry is shifted and replayed; a raise
aborts the callback there (no re-arm, `timer` variable untouched); otherwise
if entries remain `callee()` re-arms a timeout for `interval` more ticks on
the same chain (storing the handle in `timer`), and finally `timer = null`
overwrites whatever the variable held. -/
def fireOne (interval : Int) (throws : Γ → A → Bool) (e : Nat) (γ : Γ)
    (rest : List (Nat × Γ)) (s : QState Γ A) : QState Γ A :=
  match s.calls with
  | [] => ⟨[], false, rest, s.execs⟩
  | (cγ, a) :: cs =>
      if throws γ a then
        ⟨cs, s.timerVar, rest, s.execs ++ [⟨e, γ, cγ, a, true⟩]⟩
      else if cs.isEmpty then
        ⟨cs, false, rest, s.execs ++ [⟨e, γ, cγ, a, false⟩]⟩
      else
        ⟨cs, false, rest ++ [(timeoutExpiry interval e, γ)],
          s.execs ++ [⟨e, γ, cγ, a, false⟩]⟩

/-- Run every timeout callback due at or before tick `t`, earliest first.
The fuel `timers.length + calls.length` bounds the number of callbacks that
can run, since each run consumes a timeout or a queued entry. -/
def fireDue (interval : Int) (throws : Γ → A → Bool) (t : Nat) :
    Nat → QState Γ A → QState Γ A
  | 0, s => s
  | fuel + 1, s =>
      match pickMin s.timers with
      | none => s
      | some ((e, γ), rest) =>
          if e ≤ t then
            fireDue interval throws t fuel (fireOne interval throws e γ rest s)
          else s

/-- One invocation of a `queue(interval)`-decorated callable at tick `t`
(lines 240-254): the event loop first runs due timeout callbacks; the
invocation pushes its arguments (context kept as ghost data), and if the
`timer` variable is falsy it arms a drain-chain timeout capturing this
invocation's context and sets `timer` to the handle. -/
def qCall (interval : Int) (throws : Γ → A → Bool) (s : QState Γ A) (t : Nat)
    (ctx : Γ) (a : A) : QState Γ A :=
  let s1 := fireDue interval throws t (s.timers.length + s.calls.length) s
  let s2 : QState Γ A := ⟨s1.calls ++ [(ctx, a)], s1.timerVar, s1.timers, s1.execs⟩
  if s2.timerVar then s2
  else ⟨s2.calls, true, s2.timers ++ [(timeoutExpiry interval t, ctx)], s2.execs⟩

/-- Process a timed call trace through a `queue(interval)`-decorated
callable. -/
def qRun (interval : Int) (throws : Γ → A → Bool) :
    List (Nat × Γ × A) → QState Γ A → QState Γ A
  | [], s => s
  | (t, γ, a) :: rest, s =>
      qRun interval throws rest (qCall interval throws s t γ a)

/-- Run all remaining timeout callbacks after the trace is over (letting
time advance past every expiry), earliest first, with sufficient fuel. -/
def qFlush (interval : Int) (throws : Γ → A → Bool) :
    Nat → QState Γ A → QState Γ A
  | 0, s => s
  | fuel + 1, s =>
      match pickMin s.timers with
      | none => s
      | some ((e, γ), rest) =>
          qFlush interval throws fuel (fireOne interval throws e γ rest s)

/-- Complete run of a `queue(interval)`-decorated callable on a timed call
trace: process every invocation, then let all remaining timeouts expire. -/
def qComplete (interval : Int) (throws : Γ → A → Bool)
    (trace : List (Nat × Γ × A)) : QState Γ A :=
  let s := qRun interval throws trace qInit
  qFlush interval throws (s.timers.length + s.calls.length) s

/-- C2: evaluation at the failing input, `queue(10)` with calls at ticks
0, 0 and 15 and a base callable that never raises.  After the third call the
instance holds TWO live timeouts at once (the t=15 call saw `timer == null`
— nulled by the first drain callback after it had already re-armed — and
started a second drain chain), and the replays run at ticks 10, 20 and 25:
the last two only 5 ticks apart, not one per 10-tick interval. -/
theorem queue_single_timer_violated :
    ((qRun 10 (fun _ _ => false) [(0, false, 1), (0, false, 2), (15, true, 3)]
        qInit).timers.length = 2)
    ∧ ((qComplete 10 (fun _ _ => false)
        [(0, false, (1 : Nat)), (0, false, 2), (15, true, 3)]).execs.map
          QExec.time = [10, 20, 25])
    ∧ ¬ List.Chain' (fun x y => x + 10 ≤ y)
        ((qComplete 10 (fun _ _ => false)
          [(0, false, (1 : Nat)), (0, false, 2), (15, true, 3)]).execs.map
            QExec.time) := by
  refine ⟨rfl, rfl, ?_⟩
  rw [show (qComplete 10 (fun _ _ => false)
      [(0, false, (1 : Nat)), (0, false, 2), (15, true, 3)]).execs.map QExec.time
    = [10, 20, 25] from rfl]
  simp [List.chain'_cons]

/-- C3: evaluation at the failing input, `queue(10)` with two calls at tick
0 whose first replay raises, and a third call at tick 100.  The raise aborts
the drain callback before `callee()` and `timer = null` run: the second
entry is never replayed, the `timer` variable stays truthy forever, and even
the later third call only enqueues — the queue never drains again. -/
theorem queue_drain_halts_on_raise :
    qComplete 10 (fun (_ : Unit) (a : Nat) => a == 1)
        [(0, (), 1), (0, (), 2), (100, (), 3)]
      = ⟨[((), 2), ((), 3)], true, [], [⟨10, (), (), 1, true⟩]⟩ := by
  rfl

/-- C6 counterexample: `queue(10)` with two same-tick calls made under
different contexts (`false` then `true`).  Both replays run under the first
call's context — the context captured by the drain-chain-starting
invocation — so the second replay does not use its entry's own context. -/
theorem queue_entry_context_not_used :
    ¬ ∀ e ∈ (qComplete 10 (fun _ _ => false)
        [((0 : Nat), false, (1 : Nat)), (0, true, 2)]).execs,
      e.usedCtx = e.entryCtx := by
  decide

/-- Claim-side view for C6: the entry data (queuing context and arguments)
of the replays performed so far, followed by the entries still pending, in
order. -/
def qPairs (s : QState Γ A) : List (Γ × A) :=
  (s.execs.map fun e => (e.entryCtx, e.args)) ++ s.calls

lemma fireOne_qPairs (interval : Int) (throws : Γ → A → Bool) (e : Nat)
    (γ : Γ) (rest : List (Nat × Γ)) (s : QState Γ A) :
    qPairs (fireOne interval throws e γ rest s) = qPairs s := by
  obtain ⟨calls, tv, timers, execs⟩ := s
  cases calls with
  | nil => rfl
  | cons c cs =>
      obtain ⟨cγ, a⟩ := c
      by_cases ht : throws γ a
      · simp [fireOne, qPairs, ht]
      · by_cases hcs : cs.isEmpty <;> simp [fireOne, qPairs, ht, hcs]

lemma fireDue_qPairs (interval : Int) (throws : Γ → A → Bool) (t : Nat)
    (fuel : Nat) : ∀ s : QState Γ A,
    qPairs (fireDue interval throws t fuel s) = qPairs s := by
  induction fuel with
  | zero => intro s; rfl
  | succ fuel ih =>
      intro s
      cases hp : pickMin s.timers with
      | none => simp [fireDue, hp]
      | some pr =>
          obtain ⟨⟨e, γ⟩, rest⟩ := pr
          by_cases he : e ≤ t
          · simp [fireDue, hp, he, ih, fireOne_qPairs]
          · simp [fireDue, hp, he]

lemma qFlush_qPairs (interval : Int) (throws : Γ → A → Bool) (fuel : Nat) :
    ∀ s : QState Γ A, qPairs (qFlush interval throws fuel s) = qPairs s := by
  induction fuel with
  | zero => intro s; rfl
  | succ fuel ih =>
      intro s
      cases hp : pickMin s.timers with
      | none => simp [qFlush, hp]
      | some pr =>
          obtain ⟨⟨e, γ⟩, rest⟩ := pr
          simp [qFlush, hp, ih, fireOne_qPairs]

lemma qCall_qPairs (interval : Int) (throws : Γ → A → Bool) (s : QState Γ A)
    (t : Nat) (ctx : Γ) (a : A) :
    qPairs (qCall interval throws s t ctx a) = qPairs s ++ [(ctx, a)] := by
  have h1 := fireDue_qPairs interval throws t
    (s.timers.length + s.calls.length) s
  unfold qCall
  set s1 := fireDue interval throws t (s.timers.length + s.calls.length) s
  by_cases h : s1.timerVar <;>
    simp only [h, if_true, if_false, Bool.false_eq_true, ite_false, ite_true] <;>
    · show s1.execs.map _ ++ (s1.calls ++ [(ctx, a)]) = _
      rw [← List.append_assoc]
      exact congrArg (· ++ [(ctx, a)]) h1

lemma qRun_qPairs (interval : Int) (throws : Γ → A → Bool)
    (trace : List (Nat × Γ × A)) : ∀ s : QState Γ A,
    qPairs (qRun interval throws trace s)
      = qPairs s ++ trace.map fun c => (c.2.1, c.2.2) := by
  induction trace with
  | nil => intro s; simp [qRun]
  | cons c cs ih =>
      intro s
      obtain ⟨t, γ, a⟩ := c
      simp [qRun, ih, qCall_qPairs]

/-- Uniform-context invariant: every pending entry was queued under `γc`,
every live timeout's chain context is `γc`, and every replay so far ran
under `γc`. -/
def allCtx (γc : Γ) (s : QState Γ A) : Prop :=
  (∀ p ∈ s.calls, p.1 = γc) ∧ (∀ tm ∈ s.timers, tm.2 = γc) ∧
    (∀ e ∈ s.execs, e.usedCtx = γc)

lemma pickMin_mem {xs : List (Nat × Γ)} {y : Nat × Γ} {ys : List (Nat × Γ)}
    (h : pickMin xs = some (y, ys)) : y ∈ xs ∧ ∀ z ∈ ys, z ∈ xs := by
  induction xs generalizing y ys with
  | nil => simp [pickMin] at h
  | cons x xs ih =>
      simp only [pickMin] at h
      split at h
      · cases h
        exact ⟨List.mem_cons_self _ _, by simp⟩
      · rename_i y' ys' hp
        split at h
        · cases h
          exact ⟨List.mem_cons_self _ _, fun z hz => List.mem_cons_of_mem _ hz⟩
        · cases h
          obtain ⟨hy, hys⟩ := ih hp
          refine ⟨List.mem_cons_of_mem _ hy, fun z hz => ?_⟩
          rcases List.mem_cons.mp hz with rfl | hz
          · exact List.mem_cons_self _ _
          · exact List.mem_cons_of_mem _ (hys z hz)

lemma fireOne_allCtx (interval : Int) (throws : Γ → A → Bool) (e : Nat)
    (γ γc : Γ) (rest : List (Nat × Γ)) (s : QState Γ A) (hγ : γ = γc)
    (hrest : ∀ z ∈ rest, z.2 = γc) (hs : allCtx γc s) :
    allCtx γc (fireOne interval throws e γ rest s) := by
  obtain ⟨hc, ht, he⟩ := hs
  obtain ⟨calls, tv, timers, execs⟩ := s
  cases calls with
  | nil =>
      simp only [fireOne]
      exact ⟨by simp, hrest, he⟩
  | cons c cs =>
      obtain ⟨cγ, a⟩ := c
      have hcs : ∀ p ∈ cs, p.1 = γc :=
        fun p hp => hc p (List.mem_cons_of_mem _ hp)
      have hex : ∀ x ∈ execs ++ [QExec.mk e γ cγ a true], x.usedCtx = γc := by
        intro x hx
        rcases List.mem_append.mp hx with hx | hx
        · exact he x hx
        · simp at hx; subst hx; exact hγ
      have hex2 : ∀ x ∈ execs ++ [QExec.mk e γ cγ a false], x.usedCtx = γc := by
        intro x hx
        rcases List.mem_append.mp hx with hx | hx
        · exact he x hx
        · simp at hx; subst hx; exact hγ
      by_cases hth : throws γ a
      · simp only [fireOne, hth, if_true]
        exact ⟨hcs, hrest, hex⟩
      · by_cases hemp : cs.isEmpty
        · simp only [fireOne, hth, hemp, if_true, if_false, Bool.false_eq_true,
            ite_false, ite_true]
          exact ⟨hcs, hrest, hex2⟩
        · simp only [fireOne, hth, hemp, if_false, Bool.false_eq_true,
            ite_false, ite_true]
          refine ⟨hcs, ?_, hex2⟩
          intro z hz
          rcases List.mem_append.mp hz with hz | hz
          · exact hrest z hz
          · simp at hz; subst hz; exact hγ

lemma fireDue_allCtx (interval : Int) (throws : Γ → A → Bool) (t : Nat)
    (γc : Γ) (fuel : Nat) : ∀ s : QState Γ A, allCtx γc s →
    allCtx γc (fireDue interval throws t fuel s) := by
  induction fuel with
  | zero => intro s hs; exact hs
  | succ fuel ih =>
      intro s hs
      cases hp : pickMin s.timers with
      | none => simpa [fireDue, hp] using hs
      | some pr =>
          obtain ⟨⟨e, γ⟩, rest⟩ := pr
          obtain ⟨hy, hys⟩ := pickMin_mem hp
          by_cases he : e ≤ t
          · simp only [fireDue, hp, he, if_true]
            exact ih _ (fireOne_allCtx interval throws e γ γc rest s
              (hs.2.1 _ hy) (fun z hz => hs.2.1 z (hys z hz)) hs)
          · simpa [fireDue, hp, he] using hs

lemma qFlush_allCtx (interval : Int) (throws : Γ → A → Bool) (γc : Γ)
    (fuel : Nat) : ∀ s : QState Γ A, allCtx γc s →
    allCtx γc (qFlush interval throws fuel s) := by
  induction fuel with
  | zero => intro s hs; exact hs
  | succ fuel ih =>
      intro s hs
      cases hp : pickMin s.timers with
      | none => simpa [qFlush, hp] using hs
      | some pr =>
          obtain ⟨⟨e, γ⟩, rest⟩ := pr
          obtain ⟨hy, hys⟩ := pickMin_mem hp
          simp only [qFlush, hp]
          exact ih _ (fireOne_allCtx interval throws e γ γc rest s
            (hs.2.1 _ hy) (fun z hz => hs.2.1 z (hys z hz)) hs)

lemma qCall_allCtx (interval : Int) (throws : Γ → A → Bool) (s : QState Γ A)
    (t : Nat) (ctx : Γ) (a : A) (γc : Γ) (hctx : ctx = γc)
    (hs : allCtx γc s) : allCtx γc (qCall interval throws s t ctx a) := by
  have h1 := fireDue_allCtx interval throws t γc
    (s.timers.length + s.calls.length) s hs
  unfold qCall
  set s1 := fireDue interval throws t (s.timers.length + s.calls.length) s
  obtain ⟨hc, ht, he⟩ := h1
  have hc2 : ∀ p ∈ s1.calls ++ [(ctx, a)], p.1 = γc := by
    intro p hp
    rcases List.mem_append.mp hp with hp | hp
    · exact hc p hp
    · simp at hp; subst hp; exact hctx
  by_cases h : s1.timerVar
  · simp only [h, if_true]
    exact ⟨hc2, ht, he⟩
  · simp only [h, if_false, Bool.false_eq_true, ite_false]
    refine ⟨hc2, ?_, he⟩
    intro z hz
    rcases List.mem_append.mp hz with hz | hz
    · exact ht z hz
    · simp at hz; subst hz; exact hctx

lemma qRun_allCtx (interval : Int) (throws : Γ → A → Bool)
    (trace : List (Nat × Γ × A)) (γc : Γ) :
    ∀ s : QState Γ A, (∀ c ∈ trace, c.2.1 = γc) → allCtx γc s →
    allCtx γc (qRun interval throws trace s) := by
  induction trace with
  | nil => intro s _ hs; exact hs
  | cons c cs ih =>
      intro s hctx hs
      obtain ⟨t, γ, a⟩ := c
      exact ih _ (fun d hd => hctx d (List.mem_cons_of_mem _ hd))
        (qCall_allCtx interval throws s t γ a γc
          (hctx (t, γ, a) (List.mem_cons_self _ _)) hs)

/-- C6 amended: each invocation of a `queue(interval)`-decorated callable
appends only the call's arguments to the pending queue (the per-entry
context is not stored); every replay uses its entry's own arguments, in
FIFO submission order — the entry data of the performed replays followed by
the still-pending entries always equals the submitted sequence — but a
replay runs under the context captured by the invocation that started its
drain chain rather than the entry's own context; in particular, whenever
all invocations share one context `γc`, every replay runs under `γc`. -/
theorem queue_fifo_own_args_chain_context (Γ A : Type) (interval : Int)
    (throws : Γ → A → Bool) (trace : List (Nat × Γ × A)) (γc : Γ)
    (hctx : ∀ c ∈ trace, c.2.1 = γc) :
    (qPairs (qComplete interval throws trace)
      = trace.map fun c => (c.2.1, c.2.2))
    ∧ ∀ e ∈ (qComplete interval throws trace).execs, e.usedCtx = γc := by
  constructor
  · show qPairs (qFlush _ _ _ _) = _
    rw [qFlush_qPairs, qRun_qPairs]
    rfl
  · have hinit : allCtx γc (qInit (Γ := Γ) (A := A)) := by
      refine ⟨?_, ?_, ?_⟩ <;> intro x hx <;> simp [qInit] at hx
    exact (qFlush_allCtx interval throws γc _ _
      (qRun_allCtx interval throws trace γc qInit hctx hinit)).2.2

/-- Witness for the amended C6 at `queue(10)` with two same-context calls:
the replays carry the entries' own arguments in order, and both replays run
under the shared context. -/
theorem queue_fifo_own_args_chain_context_witness :
    (∀ c ∈ [((0 : Nat), (), (1 : Nat)), (0, (), 2)], c.2.1 = ())
    ∧ (qPairs (qComplete 10 (fun _ _ => false)
          [((0 : Nat), (), (1 : Nat)), (0, (), 2)]) = [((), 1), ((), 2)]
       ∧ ∀ e ∈ (qComplete 10 (fun _ _ => false)
          [((0 : Nat), (), (1 : Nat)), (0, (), 2)]).execs, e.usedCtx = ()) := by
  refine ⟨by simp, ?_⟩
  have h := queue_fifo_own_args_chain_context Unit Nat 10 (fun _ _ => false)
    [(0, (), 1), (0, (), 2)] () (by simp)
  simpa using h

end MooDecorator
